import Mathlib

/-!
Shallow embedding of the filter-topology engine of `src/simulator.py`
(classes `Component`, `FilterBlock`, `FilterTopology`, the netlist compiler
`FilterTopology.generate_netlist`, and the block-removal flow of `main`),
together with a spec-modelled parallel-impedance evaluator.

Python's in-place mutation is modelled by explicit state passing: each
operation takes the object and returns the updated object; `generate_netlist`
returns the netlist together with the updated topology (the Python method
mutates `comp.node1`, `comp.node2`, `block.start_node`, `block.end_node` and
`self.next_node` while building the string).

Numeric conventions: Python floats carrying component values are modelled as
`ℚ` (all values in the claims are exact decimals); node ids and counters are
`Nat` (they start at 1 and only grow); `position` and removal indices are
`Int`, as Python ints can be negative.
-/

/-- `Component` dataclass of `simulator.py` (lines 6-12): `type`, `value`,
`unit`, and the node ids `node1`, `node2` that default to 0 and are assigned
during netlist compilation. -/
structure Component where
  type : String
  value : ℚ
  unit : String
  node1 : Nat
  node2 : Nat
deriving DecidableEq

/-- `FilterBlock` dataclass of `simulator.py` (lines 28-63).  The Python
`components` attribute is a dict from component kind to an ordered list,
created by `__post_init__` with the keys of `COMPONENTS` in insertion order
`C, L, R, G`; it is modelled as an association list in that key order.
`sub_blocks` makes the type a nested inductive. -/
inductive FilterBlock where
  | mk (name : String) (position : Int) (parent_id : Option String)
      (block_id : String) (components : List (String × List Component))
      (sub_blocks : List FilterBlock) (start_node : Nat) (end_node : Nat)

def FilterBlock.name : FilterBlock → String
  | .mk v _ _ _ _ _ _ _ => v

def FilterBlock.position : FilterBlock → Int
  | .mk _ v _ _ _ _ _ _ => v

def FilterBlock.parent_id : FilterBlock → Option String
  | .mk _ _ v _ _ _ _ _ => v

def FilterBlock.block_id : FilterBlock → String
  | .mk _ _ _ v _ _ _ _ => v

def FilterBlock.components : FilterBlock → List (String × List Component)
  | .mk _ _ _ _ v _ _ _ => v

def FilterBlock.sub_blocks : FilterBlock → List FilterBlock
  | .mk _ _ _ _ _ v _ _ => v

def FilterBlock.start_node : FilterBlock → Nat
  | .mk _ _ _ _ _ _ v _ => v

def FilterBlock.end_node : FilterBlock → Nat
  | .mk _ _ _ _ _ _ _ v => v

/-- Replace the `components` dict of a block (used to model in-place mutation
of `self.components`). -/
def FilterBlock.set_components : FilterBlock → List (String × List Component) → FilterBlock
  | .mk nm pos pid bid _ subs s e, comps => .mk nm pos pid bid comps subs s e

/-- Replace the `sub_blocks` list of a block. -/
def FilterBlock.set_sub_blocks : FilterBlock → List FilterBlock → FilterBlock
  | .mk nm pos pid bid comps _ s e, subs => .mk nm pos pid bid comps subs s e

/-- Assign `block.position = idx` (used by the renumbering loops). -/
def FilterBlock.set_position : FilterBlock → Int → FilterBlock
  | .mk nm _ pid bid comps subs s e, pos => .mk nm pos pid bid comps subs s e

/-- Key list of the `COMPONENTS` module-level dict (lines 65-70), in its
insertion order. -/
def componentKinds : List String := ["C", "L", "R", "G"]

/-- The empty per-kind component dict built by `FilterBlock.__post_init__`:
`{component_type: [] for component_type in COMPONENTS.keys()}`. -/
def emptyComponents : List (String × List Component) :=
  componentKinds.map (fun k => (k, []))

/-- `FilterBlock(name, position)` as built by the dataclass constructor plus
`__post_init__`: empty component lists for the four kinds, no sub-blocks,
nodes 0.  The Python `block_id` is derived from `id(self)`; it is taken here
as an explicit argument. -/
def mkFilterBlock (name : String) (position : Int) (block_id : String) : FilterBlock :=
  .mk name position none block_id emptyComponents [] 0 0

/-- Python `component_type in self.components` / `self.components[component_type]`:
first value stored under the key, if any. -/
def lookupEntry : List (String × List Component) → String → Option (List Component)
  | [], _ => none
  | (k, v) :: rest, key => if k = key then some v else lookupEntry rest key

/-- Apply `f` to the value stored under `key` (dict-style in-place update of
`self.components[key]`). -/
def updateEntry : List (String × List Component) → String →
    (List Component → List Component) → List (String × List Component)
  | [], _, _ => []
  | (k, v) :: rest, key, f =>
    if k = key then (k, f v) :: rest else (k, v) :: updateEntry rest key f

/-- `FilterBlock.add_component` (lines 47-49): append a fresh `Component`
to the list for `component_type`, provided the kind is a dict key;
otherwise do nothing. -/
def FilterBlock.add_component (b : FilterBlock) (component_type : String)
    (value : ℚ) (unit : String) : FilterBlock :=
  match lookupEntry b.components component_type with
  | none => b
  | some _ =>
    b.set_components (updateEntry b.components component_type
      (fun l => l ++ [⟨component_type, value, unit, 0, 0⟩]))

/-- `FilterBlock.remove_component` (lines 51-53): `pop(index)` guarded by
`component_type in self.components and 0 <= index < len(...)`. -/
def FilterBlock.remove_component (b : FilterBlock) (component_type : String)
    (index : Int) : FilterBlock :=
  match lookupEntry b.components component_type with
  | none => b
  | some l =>
    if 0 ≤ index ∧ index < (l.length : Int) then
      b.set_components (updateEntry b.components component_type
        (fun l0 => l0.eraseIdx index.toNat))
    else b

/-- The renumbering loop `for idx, block in enumerate(...): block.position = idx`,
starting from a given index. -/
def renumberFrom : List FilterBlock → Int → List FilterBlock
  | [], _ => []
  | b :: bs, i => b.set_position i :: renumberFrom bs (i + 1)

/-- `FilterBlock.remove_sub_block` (lines 60-63): filter out children whose
`block_id` matches, then renumber the survivors' `position` to `0..n-1`. -/
def FilterBlock.remove_sub_block (b : FilterBlock) (block_id : String) : FilterBlock :=
  b.set_sub_blocks (renumberFrom (b.sub_blocks.filter (fun c => c.block_id != block_id)) 0)

/-- Assign `block.parent_id` (mutation performed by `add_sub_block`). -/
def FilterBlock.set_parent : FilterBlock → Option String → FilterBlock
  | .mk nm pos _ bid comps subs s e, pid => .mk nm pos pid bid comps subs s e

/-- `FilterBlock.add_sub_block` (lines 55-58): set the child's `parent_id`,
append it, and stably re-sort the children by `position` (Python `list.sort`
with `key=lambda x: x.position`). -/
def FilterBlock.add_sub_block (b : FilterBlock) (child : FilterBlock) : FilterBlock :=
  b.set_sub_blocks
    ((b.sub_blocks ++ [child.set_parent (some b.block_id)]).mergeSort
      (fun x y => x.position ≤ y.position))

/-- `FilterTopology` (lines 72-85): a name, the list of top-level blocks, and
the node-id counter `next_node` (initialised to 1 by `__init__`). -/
structure FilterTopology where
  name : String
  blocks : List FilterBlock
  next_node : Nat

/-- `FilterTopology(name)`. -/
def mkFilterTopology (name : String) : FilterTopology := ⟨name, [], 1⟩

/-- `FilterTopology.add_block` (lines 78-80): append and stably re-sort by
`position`. -/
def FilterTopology.add_block (t : FilterTopology) (b : FilterBlock) : FilterTopology :=
  ⟨t.name, (t.blocks ++ [b]).mergeSort (fun x y => x.position ≤ y.position), t.next_node⟩

/-- `FilterTopology.remove_block` (lines 82-85): filter out matching top-level
blocks and renumber the survivors' `position`. -/
def FilterTopology.remove_block (t : FilterTopology) (block_id : String) : FilterTopology :=
  ⟨t.name, renumberFrom (t.blocks.filter (fun b => b.block_id != block_id)) 0, t.next_node⟩

/-- The complete block-removal flow of `main` (lines 293-297): remove the id
at top level, then call `remove_sub_block` on every remaining top-level block. -/
def removeBlockFlow (t : FilterTopology) (block_id : String) : FilterTopology :=
  let t1 := t.remove_block block_id
  ⟨t1.name, t1.blocks.map (fun b => b.remove_sub_block block_id), t1.next_node⟩

/-- One emitted netlist line, structured: the header comment, a component line
`{type}{count} {node1} {node2} {value}{unit}`, or a ground line
`V{count} {node} 0 GND`. -/
inductive Line where
  | header (name : String)
  | comp (ctype : String) (idx : Nat) (node1 : Nat) (node2 : Nat) (value : ℚ) (unit : String)
  | ground (idx : Nat) (node : Nat)
deriving DecidableEq

/-- Serialization of one structured line to the text emitted by
`generate_netlist`. -/
def Line.render : Line → String
  | .header n => "* Netlist for " ++ n
  | .comp t i n1 n2 v u =>
    t ++ toString i ++ " " ++ toString n1 ++ " " ++ toString n2 ++ " " ++ toString v ++ u
  | .ground i n => "V" ++ toString i ++ " " ++ toString n ++ " 0 GND"

/-- Mutable state threaded through `generate_netlist`: the local
`component_count`, the topology's `next_node` counter, and the netlist lines
accumulated so far. -/
structure GenState where
  count : Nat
  nxt : Nat
  lines : List Line
deriving DecidableEq

/-- Inner loop of `process_block` over one `(comp_type, components)` dict
entry (lines 102-113): ground components emit a `V... GND` line at the
block's entry node; every other component receives `node1 = parallel_start_node`
and a freshly allocated `node2 = self.next_node` (then the counter is
incremented), and the running `max_parallel_node` is updated. -/
def procCompList (pStart : Nat) (ctype : String) :
    List Component → Nat → GenState → List Component × Nat × GenState
  | [], maxPar, st => ([], maxPar, st)
  | c :: cs, maxPar, st =>
    if ctype = "G" then
      let st1 : GenState := ⟨st.count + 1, st.nxt, st.lines ++ [Line.ground st.count pStart]⟩
      let r := procCompList pStart ctype cs maxPar st1
      (c :: r.1, r.2)
    else
      let nn := st.nxt
      let c1 : Component := ⟨c.type, c.value, c.unit, pStart, nn⟩
      let st1 : GenState := ⟨st.count + 1, nn + 1,
        st.lines ++ [Line.comp c.type st.count pStart nn c.value c.unit]⟩
      let r := procCompList pStart ctype cs (max maxPar nn) st1
      (c1 :: r.1, r.2)

/-- Outer loop of `process_block` over `block.components.items()`. -/
def procPairs (pStart : Nat) :
    List (String × List Component) → Nat → GenState →
    List (String × List Component) × Nat × GenState
  | [], maxPar, st => ([], maxPar, st)
  | (k, cs) :: ps, maxPar, st =>
    let r := procCompList pStart k cs maxPar st
    let r2 := procPairs pStart ps r.2.1 r.2.2
    ((k, r.1) :: r2.1, r2.2)

mutual

/-- `process_block(block, input_node)` (lines 93-122): record
`block.start_node = input_node`, wire the direct components in parallel from
the entry node, set `block.end_node` to the resulting `max_parallel_node`, and
then chain the sub-blocks in series from there.  Returns the updated block,
the block's output node, and the threaded state. -/
def processBlock : FilterBlock → Nat → GenState → FilterBlock × Nat × GenState
  | .mk nm pos pid bid comps subs _ _, input, st =>
    let r := procPairs input comps input st
    let endN := r.2.1
    let r2 := processBlocks subs endN r.2.2
    (.mk nm pos pid bid r.1 r2.1 input endN, r2.2)

/-- The series chaining loop over a list of blocks (`for sub_block in
block.sub_blocks` at lines 119-120, and the top-level loop at lines 126-127):
each block receives the current node as its `input_node` and the current node
is replaced by the block's output node. -/
def processBlocks : List FilterBlock → Nat → GenState → List FilterBlock × Nat × GenState
  | [], input, st => ([], input, st)
  | b :: bs, input, st =>
    let r := processBlock b input st
    let r2 := processBlocks bs r.2.1 r.2.2
    (r.1 :: r2.1, r2.2)

end

/-- `FilterTopology.generate_netlist` (lines 87-129), returning the structured
lines: start from the header line, reset `component_count` to 1 and
`self.next_node` to 1, and process all top-level blocks starting from node 1.
The second projection is the topology as mutated by the call. -/
def generateNetlistLines (t : FilterTopology) : List Line × FilterTopology :=
  let st0 : GenState := ⟨1, 1, [Line.header t.name]⟩
  let r := processBlocks t.blocks 1 st0
  (r.2.2.lines, ⟨t.name, r.1, r.2.2.nxt⟩)

/-- `FilterTopology.generate_netlist` with its lines rendered and joined by
`"\n"`, exactly the string the Python method returns. -/
def generate_netlist (t : FilterTopology) : String × FilterTopology :=
  let r := generateNetlistLines t
  (String.intercalate "\n" (r.1.map Line.render), r.2)

/-!
Shape of a block: everything `generate_netlist` does not overwrite — names,
positions, ids, the component dict up to the `node1`/`node2` fields, and the
sub-block tree.  Used to prove the frame property of compilation (only the
node-numbering state changes) and the idempotence of re-compilation.
-/

/-- Data of a block tree with every node-numbering field erased. -/
inductive BlockShape where
  | mk (name : String) (position : Int) (parent_id : Option String)
      (block_id : String)
      (components : List (String × List (String × ℚ × String)))
      (sub_blocks : List BlockShape)

/-- The node-free part of a component: its `type`, `value` and `unit`. -/
def Component.shape (c : Component) : String × ℚ × String := (c.type, c.value, c.unit)

/-- The node-free part of one component-dict entry. -/
def pairShape (p : String × List Component) : String × List (String × ℚ × String) :=
  (p.1, p.2.map Component.shape)

mutual

/-- The node-free part of a block. -/
def FilterBlock.shape : FilterBlock → BlockShape
  | .mk nm pos pid bid comps subs _ _ =>
    .mk nm pos pid bid (comps.map pairShape) (shapeList subs)

/-- The node-free part of a list of blocks. -/
def shapeList : List FilterBlock → List BlockShape
  | [] => []
  | b :: bs => b.shape :: shapeList bs

end

theorem procCompList_shape (p : Nat) (ct : String) (cs1 : List Component) :
    ∀ (cs2 : List Component) (m : Nat) (st : GenState),
      cs1.map Component.shape = cs2.map Component.shape →
      (procCompList p ct cs1 m st).1.map Component.shape = cs1.map Component.shape ∧
      (procCompList p ct cs1 m st).2 = (procCompList p ct cs2 m st).2 := by
  induction cs1 with
  | nil =>
    intro cs2 m st h
    cases cs2 with
    | nil => exact ⟨rfl, rfl⟩
    | cons d ds => simp at h
  | cons c cs ih =>
    intro cs2 m st h
    cases cs2 with
    | nil => simp at h
    | cons d ds =>
      simp only [List.map_cons, List.cons.injEq] at h
      obtain ⟨hc, hcs⟩ := h
      have ht : c.type = d.type := congrArg Prod.fst hc
      have hv : c.value = d.value := congrArg (fun x => x.2.1) hc
      have hu : c.unit = d.unit := congrArg (fun x => x.2.2) hc
      by_cases hg : ct = "G"
      · simp only [procCompList, if_pos hg]
        have := ih ds m ⟨st.count + 1, st.nxt, st.lines ++ [Line.ground st.count p]⟩ hcs
        refine ⟨?_, this.2⟩
        simp [this.1, Component.shape]
      · simp only [procCompList, if_neg hg]
        rw [ht, hv, hu]
        have := ih ds (max m st.nxt)
          ⟨st.count + 1, st.nxt + 1,
            st.lines ++ [Line.comp d.type st.count p st.nxt d.value d.unit]⟩ hcs
        refine ⟨?_, this.2⟩
        simp [this.1, Component.shape, ht, hv, hu]

theorem procPairs_shape (p : Nat) (ps1 : List (String × List Component)) :
    ∀ (ps2 : List (String × List Component)) (m : Nat) (st : GenState),
      ps1.map pairShape = ps2.map pairShape →
      (procPairs p ps1 m st).1.map pairShape = ps1.map pairShape ∧
      (procPairs p ps1 m st).2 = (procPairs p ps2 m st).2 := by
  induction ps1 with
  | nil =>
    intro ps2 m st h
    cases ps2 with
    | nil => exact ⟨rfl, rfl⟩
    | cons q qs => simp at h
  | cons q qs ih =>
    intro ps2 m st h
    cases ps2 with
    | nil => simp at h
    | cons q2 qs2 =>
      obtain ⟨k, cs⟩ := q
      obtain ⟨k2, cs2⟩ := q2
      simp only [List.map_cons, List.cons.injEq, pairShape, Prod.mk.injEq] at h
      obtain ⟨⟨hk, hl⟩, hqs⟩ := h
      subst hk
      simp only [procPairs]
      have h1 := procCompList_shape p k cs cs2 m st hl
      have h2 := ih qs2 (procCompList p k cs m st).2.1 (procCompList p k cs m st).2.2 hqs
      constructor
      · simp [pairShape, h1.1, h2.1]
      · rw [h1.2] at h2 ⊢
        exact h2.2

mutual

theorem processBlock_shape (b1 b2 : FilterBlock) (n : Nat) (st : GenState)
    (h : b1.shape = b2.shape) :
    (processBlock b1 n st).1.shape = b1.shape ∧
    (processBlock b1 n st).2 = (processBlock b2 n st).2 := by
  cases b1 with
  | mk nm1 pos1 pid1 bid1 comps1 subs1 s1 e1 =>
  cases b2 with
  | mk nm2 pos2 pid2 bid2 comps2 subs2 s2 e2 =>
  simp only [FilterBlock.shape, BlockShape.mk.injEq] at h
  obtain ⟨h1, h2, h3, h4, h5, h6⟩ := h
  have hp := procPairs_shape n comps1 comps2 n st h5
  have hs := processBlocks_shape subs1 subs2
    (procPairs n comps1 n st).2.1 (procPairs n comps1 n st).2.2 h6
  constructor
  · simp only [processBlock, FilterBlock.shape]
    rw [hp.1, hs.1]
  · simp only [processBlock]
    rw [← hp.2]
    exact hs.2

theorem processBlocks_shape (bs1 bs2 : List FilterBlock) (n : Nat) (st : GenState)
    (h : shapeList bs1 = shapeList bs2) :
    shapeList (processBlocks bs1 n st).1 = shapeList bs1 ∧
    (processBlocks bs1 n st).2 = (processBlocks bs2 n st).2 := by
  cases bs1 with
  | nil =>
    cases bs2 with
    | nil => exact ⟨rfl, rfl⟩
    | cons b bs => simp [shapeList] at h
  | cons b bs =>
    cases bs2 with
    | nil => simp [shapeList] at h
    | cons b2 bs2 =>
      simp only [shapeList, List.cons.injEq] at h
      obtain ⟨hb, hbs⟩ := h
      have h1 := processBlock_shape b b2 n st hb
      have h2 := processBlocks_shape bs bs2
        (processBlock b n st).2.1 (processBlock b n st).2.2 hbs
      constructor
      · simp only [processBlocks, shapeList]
        rw [h1.1, h2.1]
      · simp only [processBlocks]
        rw [← h1.2]
        exact h2.2

end

/-!
Output node of a processed block, and the series-chaining relation between
consecutive children: the value `process_block` returns is its `end_node` when
it has no children, and otherwise the output node of its last child.
-/

mutual

/-- Node a compiled block hands back to its caller: `end_node` if it has no
sub-blocks, else the output node of its last sub-block. -/
def outNode : FilterBlock → Nat
  | .mk _ _ _ _ _ subs _ e => outNodeList e subs

/-- Output node of a chain of compiled blocks starting from a default. -/
def outNodeList : Nat → List FilterBlock → Nat
  | d, [] => d
  | _, b :: bs => outNodeList (outNode b) bs

end

/-- `chainedFrom n bs`: the first block of `bs` starts at node `n` and every
later block starts at the output node of its predecessor — the series wiring
of children produced by compilation. -/
def chainedFrom : Nat → List FilterBlock → Prop
  | _, [] => True
  | n, b :: bs => b.start_node = n ∧ chainedFrom (outNode b) bs

/-- The `node2` ids of the direct non-Ground components of a component dict
(the ids freshly allocated for the parallel components, after compilation). -/
def nonGroundNode2s (comps : List (String × List Component)) : List Nat :=
  (comps.filter (fun p => p.1 != "G")).flatMap (fun p => p.2.map Component.node2)

theorem nonGroundNode2s_nil : nonGroundNode2s [] = [] := rfl

theorem nonGroundNode2s_cons (k : String) (cs : List Component)
    (ps : List (String × List Component)) :
    nonGroundNode2s ((k, cs) :: ps) =
      (if k = "G" then [] else cs.map Component.node2) ++ nonGroundNode2s ps := by
  by_cases h : k = "G"
  · simp [nonGroundNode2s, List.filter_cons, h]
  · simp [nonGroundNode2s, List.filter_cons, h]

theorem procCompList_max (p : Nat) (ct : String) (cs : List Component) :
    ∀ (m : Nat) (st : GenState),
      st.nxt ≤ (procCompList p ct cs m st).2.2.nxt ∧
      (ct = "G" → (procCompList p ct cs m st).1 = cs ∧
        (procCompList p ct cs m st).2.1 = m ∧
        (procCompList p ct cs m st).2.2.nxt = st.nxt) ∧
      (ct ≠ "G" →
        (procCompList p ct cs m st).2.1 =
          List.foldl max m ((procCompList p ct cs m st).1.map Component.node2) ∧
        ∀ x ∈ (procCompList p ct cs m st).1.map Component.node2, st.nxt ≤ x) := by
  induction cs with
  | nil =>
    intro m st
    refine ⟨le_refl _, fun _ => ⟨rfl, rfl, rfl⟩, fun _ => ⟨rfl, ?_⟩⟩
    intro x hx
    simp [procCompList] at hx
  | cons c cs ih =>
    intro m st
    by_cases hg : ct = "G"
    · simp only [procCompList, if_pos hg]
      have h := ih m ⟨st.count + 1, st.nxt, st.lines ++ [Line.ground st.count p]⟩
      refine ⟨h.1, fun _ => ?_, fun hne => absurd hg hne⟩
      obtain ⟨g1, g2, g3⟩ := h.2.1 hg
      exact ⟨by rw [g1], g2, g3⟩
    · simp only [procCompList, if_neg hg]
      have h := ih (max m st.nxt)
        ⟨st.count + 1, st.nxt + 1,
          st.lines ++ [Line.comp c.type st.count p st.nxt c.value c.unit]⟩
      refine ⟨le_trans (Nat.le_succ _) h.1, fun heq => absurd heq hg, fun _ => ?_⟩
      obtain ⟨e1, e2⟩ := h.2.2 hg
      constructor
      · simpa using e1
      · intro x hx
        simp only [List.map_cons, List.mem_cons] at hx
        rcases hx with rfl | hx
        · exact le_refl _
        · exact le_trans (Nat.le_succ _) (e2 x hx)

theorem procPairs_max (p : Nat) (ps : List (String × List Component)) :
    ∀ (m : Nat) (st : GenState),
      st.nxt ≤ (procPairs p ps m st).2.2.nxt ∧
      (procPairs p ps m st).2.1 =
        List.foldl max m (nonGroundNode2s (procPairs p ps m st).1) ∧
      ∀ x ∈ nonGroundNode2s (procPairs p ps m st).1, st.nxt ≤ x := by
  induction ps with
  | nil =>
    intro m st
    refine ⟨le_refl _, rfl, ?_⟩
    intro x hx
    simp [procPairs, nonGroundNode2s] at hx
  | cons q ps ih =>
    intro m st
    obtain ⟨k, cs⟩ := q
    simp only [procPairs]
    have hc := procCompList_max p k cs m st
    have hi := ih (procCompList p k cs m st).2.1 (procCompList p k cs m st).2.2
    rw [nonGroundNode2s_cons]
    by_cases hg : k = "G"
    · obtain ⟨g1, g2, g3⟩ := hc.2.1 hg
      simp only [if_pos hg, List.nil_append]
      refine ⟨le_trans (le_of_eq g3.symm) hi.1, ?_, ?_⟩
      · rw [hi.2.1, g2]
      · intro x hx
        exact le_trans (le_of_eq g3.symm) (hi.2.2 x hx)
    · obtain ⟨e1, e2⟩ := hc.2.2 hg
      simp only [if_neg hg]
      refine ⟨le_trans hc.1 hi.1, ?_, ?_⟩
      · rw [List.foldl_append, ← e1, hi.2.1]
      · intro x hx
        rcases List.mem_append.mp hx with h | h
        · exact e2 x h
        · exact le_trans hc.1 (hi.2.2 x h)

theorem foldl_max_bounds (l : List Nat) :
    ∀ (a : Nat), a ≤ l.foldl max a ∧ ∀ x ∈ l, x ≤ l.foldl max a := by
  induction l with
  | nil => intro a; simp
  | cons b l ih =>
    intro a
    simp only [List.foldl_cons, List.mem_cons]
    refine ⟨le_trans (Nat.le_max_left a b) (ih (max a b)).1, ?_⟩
    rintro x (rfl | hx)
    · exact le_trans (Nat.le_max_right a x) (ih (max a x)).1
    · exact (ih (max a b)).2 x hx

theorem foldl_max_mem_or_eq (l : List Nat) :
    ∀ (a : Nat), l.foldl max a ∈ l ∨ l.foldl max a = a := by
  induction l with
  | nil => intro a; exact Or.inr rfl
  | cons b l ih =>
    intro a
    simp only [List.foldl_cons, List.mem_cons]
    rcases ih (max a b) with h | h
    · exact Or.inl (Or.inr h)
    · rcases max_choice a b with hm | hm
      · exact Or.inr (h.trans hm)
      · exact Or.inl (Or.inl (h.trans hm))

theorem foldl_max_spec (l : List Nat) (a : Nat) (hne : l ≠ [])
    (hdom : ∀ x ∈ l, a ≤ x) :
    l.foldl max a ∈ l ∧ ∀ x ∈ l, x ≤ l.foldl max a := by
  refine ⟨?_, (foldl_max_bounds l a).2⟩
  rcases foldl_max_mem_or_eq l a with h | h
  · exact h
  · cases l with
    | nil => exact absurd rfl hne
    | cons b l =>
      have hb : b ≤ List.foldl max a (b :: l) :=
        (foldl_max_bounds (b :: l) a).2 b (List.mem_cons_self b l)
      have hab : a ≤ b := hdom b (List.mem_cons_self b l)
      have hba : b ≤ a := h ▸ hb
      have hfold : List.foldl max a (b :: l) = b := by
        rw [h]
        exact le_antisymm hab hba
      rw [hfold]
      exact List.mem_cons_self b l

mutual

theorem processBlock_chain (b : FilterBlock) (n : Nat) (st : GenState) :
    (processBlock b n st).1.start_node = n ∧
    (processBlock b n st).2.1 = outNode (processBlock b n st).1 ∧
    chainedFrom (processBlock b n st).1.end_node (processBlock b n st).1.sub_blocks := by
  cases b with
  | mk nm pos pid bid comps subs s e =>
    have hs := processBlocks_chain subs (procPairs n comps n st).2.1 (procPairs n comps n st).2.2
    constructor
    · rfl
    constructor
    · simp only [processBlock, outNode]
      exact hs.2
    · simp only [processBlock, FilterBlock.end_node, FilterBlock.sub_blocks]
      exact hs.1

theorem processBlocks_chain (bs : List FilterBlock) (n : Nat) (st : GenState) :
    chainedFrom n (processBlocks bs n st).1 ∧
    (processBlocks bs n st).2.1 = outNodeList n (processBlocks bs n st).1 := by
  cases bs with
  | nil => exact ⟨trivial, rfl⟩
  | cons b bs =>
    have h1 := processBlock_chain b n st
    have h2 := processBlocks_chain bs (processBlock b n st).2.1 (processBlock b n st).2.2
    simp only [processBlocks, chainedFrom, outNodeList]
    refine ⟨⟨h1.1, ?_⟩, ?_⟩
    · rw [← h1.2.1]
      exact h2.1
    · rw [← h1.2.1]
      exact h2.2

end

theorem processBlock_endnode (b : FilterBlock) (input : Nat) (st : GenState) :
    (processBlock b input st).1.end_node =
      List.foldl max input (nonGroundNode2s (processBlock b input st).1.components) ∧
    (∀ x ∈ nonGroundNode2s (processBlock b input st).1.components, st.nxt ≤ x) ∧
    (processBlock b input st).1.components.map pairShape = b.components.map pairShape := by
  cases b with
  | mk nm pos pid bid comps subs s e =>
    have hm := procPairs_max input comps input st
    have hs := (procPairs_shape input comps comps input st rfl).1
    simp only [processBlock, FilterBlock.end_node, FilterBlock.components]
    exact ⟨hm.2.1, hm.2.2, hs⟩

theorem nonGroundNode2s_length_of_shape (ps1 : List (String × List Component)) :
    ∀ (ps2 : List (String × List Component)),
      ps1.map pairShape = ps2.map pairShape →
      (nonGroundNode2s ps1).length = (nonGroundNode2s ps2).length := by
  induction ps1 with
  | nil =>
    intro ps2 h
    cases ps2 with
    | nil => rfl
    | cons q qs => simp at h
  | cons q qs ih =>
    intro ps2 h
    cases ps2 with
    | nil => simp at h
    | cons q2 qs2 =>
      obtain ⟨k, cs⟩ := q
      obtain ⟨k2, cs2⟩ := q2
      simp only [List.map_cons, List.cons.injEq, pairShape, Prod.mk.injEq] at h
      obtain ⟨⟨hk, hl⟩, hqs⟩ := h
      subst hk
      rw [nonGroundNode2s_cons, nonGroundNode2s_cons]
      have hlen : cs.length = cs2.length := by
        have h2 := congrArg List.length hl
        simpa using h2
      by_cases hg : k = "G" <;>
        simp [hg, ih qs2 hqs, hlen]

/-!
Spec-modelled network-analysis definitions.  The repository source under
`src/` contains only the topology engine; the spec's Network Analysis Engine
(`RLCNetwork`, `calculate_parallel_impedance`) has no source file here, so it
is modelled from the spec's own words (sections 3, 4.3 and 8).
-/

/-- Complex number with exact rational parts (the evaluator's complex
arithmetic, modelled exactly). -/
structure Cx where
  re : ℚ
  im : ℚ
deriving DecidableEq

/-- Complex addition. -/
def Cx.add (x y : Cx) : Cx := ⟨x.re + y.re, x.im + y.im⟩

/-- Complex zero. -/
def Cx.zero : Cx := ⟨0, 0⟩

/-- Complex reciprocal (`conj z / |z|²`; maps 0 to 0, but it is only applied
to nonzero totals below). -/
def Cx.inv (x : Cx) : Cx :=
  ⟨x.re / (x.re ^ 2 + x.im ^ 2), -x.im / (x.re ^ 2 + x.im ^ 2)⟩

/-- Modelled from the spec: `RLCNetwork` — "independently toggle-able
Resistance/Inductance/Capacitance ... components, each with enabled flag and
optional value" (spec section 3; the Wire component plays no part in the
conductance accumulation of section 4.3 and is omitted). -/
structure RLCNetwork where
  r_enabled : Bool
  r_value : ℚ
  l_enabled : Bool
  l_value : ℚ
  c_enabled : Bool
  c_value : ℚ
deriving DecidableEq

/-- Modelled from the spec: `calculate_parallel_impedance` (spec section 4.3).
Inductance is supplied in milli-units (divided by 1000 to Henries),
capacitance in micro-units (divided by 1e6 to Farads), resistance in Ohms.
For each enabled component with a positive value its conductance is added:
resistor `1/R`, inductor `1/(jωL)`, capacitor `jωC`.  If the total is exactly
zero the impedance is infinite (`none`, open circuit); otherwise it is
`1 / total`. -/
def calculate_parallel_impedance (net : RLCNetwork) (omega : ℚ) : Option Cx :=
  let lH := net.l_value / 1000
  let cF := net.c_value / 1000000
  let gR := if net.r_enabled ∧ 0 < net.r_value then Cx.mk (1 / net.r_value) 0 else Cx.zero
  let gL := if net.l_enabled ∧ 0 < net.l_value then Cx.inv ⟨0, omega * lH⟩ else Cx.zero
  let gC := if net.c_enabled ∧ 0 < net.c_value then Cx.mk 0 (omega * cF) else Cx.zero
  let total := (gR.add gL).add gC
  if total = Cx.zero then none else some (Cx.inv total)

/-- At least one of the three components is enabled with a positive value. -/
def enabledPositive (net : RLCNetwork) : Prop :=
  (net.r_enabled ∧ 0 < net.r_value) ∨ (net.l_enabled ∧ 0 < net.l_value) ∨
    (net.c_enabled ∧ 0 < net.c_value)

/-- Pure L‖C resonance: no enabled positive resistor, both inductor and
capacitor enabled and positive, and `ω·C_F · ω·L_H = 1` (after unit
normalization), i.e. the inductive and capacitive susceptances cancel
exactly. -/
def lcResonance (net : RLCNetwork) (omega : ℚ) : Prop :=
  ¬(net.r_enabled ∧ 0 < net.r_value) ∧ (net.l_enabled ∧ 0 < net.l_value) ∧
    (net.c_enabled ∧ 0 < net.c_value) ∧
    omega * (net.c_value / 1000000) * (omega * (net.l_value / 1000)) = 1

/-!
Operation sequences on a block, and invariant checkers used by the claims.
-/

/-- One component-mutation request addressed to a block. -/
inductive BlockOp where
  | add (component_type : String) (value : ℚ) (unit : String)
  | remove (component_type : String) (index : Int)

/-- Apply one mutation request. -/
def applyOp (b : FilterBlock) : BlockOp → FilterBlock
  | .add ct v u => b.add_component ct v u
  | .remove ct i => b.remove_component ct i

/-- All direct components of the block have non-negative values. -/
def compsNonneg (b : FilterBlock) : Prop :=
  ∀ p ∈ b.components, ∀ c ∈ p.2, 0 ≤ c.value

/-- Boolean version of `compsNonneg`. -/
def compsNonnegB (b : FilterBlock) : Bool :=
  b.components.all (fun p => p.2.all (fun c => decide (0 ≤ c.value)))

/-- An operation that cannot introduce a negative value: any removal, or an
addition whose value is non-negative. -/
def opNonneg : BlockOp → Prop
  | .add _ v _ => 0 ≤ v
  | .remove _ _ => True

mutual

/-- `holdsRefB bid b = true` iff `b`, or some block nested anywhere below it,
holds a direct sub-block whose `block_id` is `bid`. -/
def holdsRefB (bid : String) : FilterBlock → Bool
  | .mk _ _ _ _ _ subs _ _ =>
    subs.any (fun c => c.block_id == bid) || holdsRefAny bid subs

/-- Any block of the list (or nested below it) holds a sub-block with id
`bid`. -/
def holdsRefAny (bid : String) : List FilterBlock → Bool
  | [] => false
  | b :: bs => holdsRefB bid b || holdsRefAny bid bs

end

/-- Some block reachable in the topology holds a sub-block with id `bid`. -/
def anyBlockHoldsRef (t : FilterTopology) (bid : String) : Bool :=
  holdsRefAny bid t.blocks

/-- No top-level block has id `bid`, and no top-level block directly holds a
sub-block with id `bid`. -/
def topLevelClean (t : FilterTopology) (bid : String) : Bool :=
  t.blocks.all (fun b =>
    (b.block_id != bid) && b.sub_blocks.all (fun c => c.block_id != bid))

/-- The dense index sequence `i, i+1, ..., i+n-1` (as `Int`s), the positions
produced by the renumbering loop. -/
def posIdxList : Nat → Int → List Int
  | 0, _ => []
  | n + 1, i => i :: posIdxList n (i + 1)

/-- A block with its `position` field erased (set to 0), for stating that
renumbering changes nothing but positions. -/
def erasePosition (b : FilterBlock) : FilterBlock := b.set_position 0

/-- Component lines of a netlist (the `{kind}{index} ...` lines, excluding
the header and the ground/voltage lines). -/
def Line.isComp : Line → Bool
  | .comp _ _ _ _ _ _ => true
  | _ => false

/-- The component lines of a line list, in order. -/
def compLines (ls : List Line) : List Line := ls.filter Line.isComp

/-- First node of a line (`node1` of a component line, the referenced node of
a ground line, 0 for the header). -/
def Line.n1 : Line → Nat
  | .comp _ _ n1 _ _ _ => n1
  | .ground _ n => n
  | .header _ => 0

/-- Second node of a line (`node2` of a component line, 0 otherwise). -/
def Line.n2 : Line → Nat
  | .comp _ _ _ n2 _ _ => n2
  | _ => 0

/-!
Propagation of the `input_node ≤ next_node` invariant: it holds at the
top-level call (both are 1 after the reset) and every `process_block` call
re-establishes it for the next call, so the hypothesis of the C3 theorem holds
at every call site inside `generate_netlist`.
-/

theorem foldl_max_le (l : List Nat) :
    ∀ (a c : Nat), a ≤ c → (∀ x ∈ l, x ≤ c) → l.foldl max a ≤ c := by
  induction l with
  | nil => intro a c h _; exact h
  | cons b l ih =>
    intro a c h hall
    simp only [List.foldl_cons]
    exact ih (max a b) c (max_le h (hall b (List.mem_cons_self b l)))
      (fun x hx => hall x (List.mem_cons_of_mem b hx))

theorem procCompList_nxt_ub (p : Nat) (ct : String) (cs : List Component) :
    ∀ (m : Nat) (st : GenState), ct ≠ "G" →
      ∀ x ∈ (procCompList p ct cs m st).1.map Component.node2,
        x < (procCompList p ct cs m st).2.2.nxt := by
  induction cs with
  | nil =>
    intro m st _ x hx
    simp [procCompList] at hx
  | cons c cs ih =>
    intro m st hg x hx
    simp only [procCompList, if_neg hg] at hx ⊢
    simp only [List.map_cons, List.mem_cons] at hx
    have hmono := (procCompList_max p ct cs (max m st.nxt)
      ⟨st.count + 1, st.nxt + 1,
        st.lines ++ [Line.comp c.type st.count p st.nxt c.value c.unit]⟩).1
    rcases hx with rfl | hx
    · exact lt_of_lt_of_le (Nat.lt_succ_self _) hmono
    · exact ih (max m st.nxt) _ hg x hx

theorem procPairs_nxt_ub (p : Nat) (ps : List (String × List Component)) :
    ∀ (m : Nat) (st : GenState),
      ∀ x ∈ nonGroundNode2s (procPairs p ps m st).1,
        x < (procPairs p ps m st).2.2.nxt := by
  induction ps with
  | nil =>
    intro m st x hx
    simp [procPairs, nonGroundNode2s] at hx
  | cons q ps ih =>
    intro m st x hx
    obtain ⟨k, cs⟩ := q
    simp only [procPairs] at hx ⊢
    rw [nonGroundNode2s_cons] at hx
    have hmono := (procPairs_max p ps (procCompList p k cs m st).2.1
      (procCompList p k cs m st).2.2).1
    rcases List.mem_append.mp hx with h | h
    · by_cases hg : k = "G"
      · rw [if_pos hg] at h
        simp at h
      · rw [if_neg hg] at h
        exact lt_of_lt_of_le (procCompList_nxt_ub p k cs m st hg x h) hmono
    · exact ih (procCompList p k cs m st).2.1 (procCompList p k cs m st).2.2 x h

mutual

theorem processBlock_nxt (b : FilterBlock) (n : Nat) (st : GenState) (h : n ≤ st.nxt) :
    (processBlock b n st).2.1 ≤ (processBlock b n st).2.2.nxt ∧
    st.nxt ≤ (processBlock b n st).2.2.nxt := by
  cases b with
  | mk nm pos pid bid comps subs s e =>
    have hm := procPairs_max n comps n st
    have hub := procPairs_nxt_ub n comps n st
    have hend : (procPairs n comps n st).2.1 ≤ (procPairs n comps n st).2.2.nxt := by
      rw [hm.2.1]
      exact foldl_max_le _ _ _ (le_trans h hm.1) (fun x hx => le_of_lt (hub x hx))
    have hs := processBlocks_nxt subs (procPairs n comps n st).2.1
      (procPairs n comps n st).2.2 hend
    simp only [processBlock]
    exact ⟨hs.1, le_trans hm.1 hs.2⟩

theorem processBlocks_nxt (bs : List FilterBlock) (n : Nat) (st : GenState) (h : n ≤ st.nxt) :
    (processBlocks bs n st).2.1 ≤ (processBlocks bs n st).2.2.nxt ∧
    st.nxt ≤ (processBlocks bs n st).2.2.nxt := by
  cases bs with
  | nil => exact ⟨h, le_refl _⟩
  | cons b bs =>
    have h1 := processBlock_nxt b n st h
    have h2 := processBlocks_nxt bs (processBlock b n st).2.1 (processBlock b n st).2.2 h1.1
    simp only [processBlocks]
    exact ⟨h2.1, le_trans h1.2 h2.2⟩

end

/-!
Concrete fixtures used by the counterexamples and witnesses.
-/

/-- A fresh block as the UI creates it (`FilterBlock("Block 1", 0)`). -/
def blockDefault : FilterBlock := mkFilterBlock "Block 1" 0 "b0"

/-- A top-level block holding two resistors of 100Ω and 200Ω, added in that
order, and nothing else. -/
def blockC1 : FilterBlock :=
  ((mkFilterBlock "Block 1" 0 "b1").add_component "R" 100 "Ω").add_component "R" 200 "Ω"

/-- Topology with exactly the one block `blockC1` and no children. -/
def topoC1 : FilterTopology := ⟨"Custom", [blockC1], 1⟩

/-- A block holding a single 100Ω resistor. -/
def blockW : FilterBlock := (mkFilterBlock "W" 0 "w").add_component "R" 100 "Ω"

/-- C1: the claim asserts the two component lines get `node2` values "distinct
from node1 and from each other"; in fact the counter starts at 1, which is
also the entry node, so the first resistor receives `node2 = 1 = node1`:
the compiled lines are `R1 1 1 100Ω` and `R2 1 2 200Ω`, refuting the
distinctness part at this concrete topology. -/
theorem netlist_two_resistors_counterexample :
    compLines (generateNetlistLines topoC1).1 =
      [Line.comp "R" 1 1 1 100 "Ω", Line.comp "R" 2 1 2 200 "Ω"] ∧
    ((compLines (generateNetlistLines topoC1).1).all (fun l => l.n2 != l.n1)) = false := by
  decide

/-- C1 (amended): compiling `topoC1` produces exactly 2 component lines, both
with `node1 = 1` (the shared entry node), with `node2` values 1 and 2
respectively, in declaration order — the first freshly allocated node id
coincides with the entry node because the counter is reset to 1, which is
also the starting input node. -/
theorem netlist_two_resistors_amended :
    (compLines (generateNetlistLines topoC1).1).length = 2 ∧
    compLines (generateNetlistLines topoC1).1 =
      [Line.comp "R" 1 1 1 100 "Ω", Line.comp "R" 2 1 2 200 "Ω"] := by
  decide

/-- C2: re-running `generate_netlist` on the topology exactly as the first
call left it (node fields and the `next_node` counter mutated, everything else
untouched) returns the identical netlist string: the counter is reset to 1 at
the start of each compilation and the emitted lines depend only on the
node-free shape, which compilation preserves. -/
theorem generate_netlist_idempotent (t : FilterTopology) :
    (generate_netlist t).1 = (generate_netlist ((generate_netlist t).2)).1 := by
  have hpres := (processBlocks_shape t.blocks t.blocks 1 ⟨1, 1, [Line.header t.name]⟩ rfl).1
  have hcong := (processBlocks_shape
    (processBlocks t.blocks 1 ⟨1, 1, [Line.header t.name]⟩).1
    t.blocks 1 ⟨1, 1, [Line.header t.name]⟩ hpres).2
  simp only [generate_netlist, generateNetlistLines]
  rw [hcong]

/-- C10: `generate_netlist` mutates only node-numbering state: the returned
topology keeps the name, and the node-free shape of the block list — the block
order and every block's name, position, ids, component kinds/values/units in
order, and sub-block tree — is exactly that of the input. -/
theorem generate_netlist_frame (t : FilterTopology) :
    ((generate_netlist t).2).name = t.name ∧
    shapeList ((generate_netlist t).2).blocks = shapeList t.blocks := by
  have hpres := (processBlocks_shape t.blocks t.blocks 1 ⟨1, 1, [Line.header t.name]⟩ rfl).1
  exact ⟨rfl, hpres⟩

/-- C3: compiling a block with `input_node ≤ next_node` (the invariant holding
at every call site inside `generate_netlist`) sets `end_node` to the maximum
`node2` allocated among the block's direct non-Ground components — or leaves
it at `input_node` when the block has none — and then compiles the children in
sequence, each one starting at the node where its predecessor ended
(`chainedFrom`), returning the final node; that returned node is again
bounded by the updated counter, re-establishing the invariant for every
subsequent call. -/
theorem process_block_endnode_chain (b : FilterBlock) (input : Nat) (st : GenState)
    (h : input ≤ st.nxt) :
    (nonGroundNode2s b.components = [] → (processBlock b input st).1.end_node = input) ∧
    (nonGroundNode2s b.components ≠ [] →
      (processBlock b input st).1.end_node ∈
        nonGroundNode2s (processBlock b input st).1.components ∧
      ∀ x ∈ nonGroundNode2s (processBlock b input st).1.components,
        x ≤ (processBlock b input st).1.end_node) ∧
    chainedFrom (processBlock b input st).1.end_node (processBlock b input st).1.sub_blocks ∧
    (processBlock b input st).2.1 = outNode (processBlock b input st).1 ∧
    (processBlock b input st).2.1 ≤ (processBlock b input st).2.2.nxt := by
  have he := processBlock_endnode b input st
  have hc := processBlock_chain b input st
  have hlen := nonGroundNode2s_length_of_shape _ _ he.2.2
  refine ⟨?_, ?_, hc.2.2, hc.2.1, (processBlock_nxt b input st h).1⟩
  · intro hnil
    have hout : nonGroundNode2s (processBlock b input st).1.components = [] := by
      rw [hnil] at hlen
      exact List.length_eq_zero.mp (by simpa using hlen)
    rw [he.1, hout]
    rfl
  · intro hne
    have hne2 : nonGroundNode2s (processBlock b input st).1.components ≠ [] := by
      intro hnil
      apply hne
      rw [hnil] at hlen
      exact List.length_eq_zero.mp (by simpa using hlen.symm)
    have hdom : ∀ x ∈ nonGroundNode2s (processBlock b input st).1.components, input ≤ x :=
      fun x hx => le_trans h (he.2.1 x hx)
    have hspec := foldl_max_spec _ input hne2 hdom
    rw [he.1]
    exact hspec

/-- Witness for C3 at a concrete block with one resistor, entry node 1 and
counter 1: the end node is one of the allocated `node2` ids. -/
theorem process_block_endnode_chain_witness :
    (1 : Nat) ≤ (⟨1, 1, []⟩ : GenState).nxt ∧
    (processBlock blockW 1 ⟨1, 1, []⟩).1.end_node ∈
      nonGroundNode2s (processBlock blockW 1 ⟨1, 1, []⟩).1.components :=
  ⟨by decide,
    ((process_block_endnode_chain blockW 1 ⟨1, 1, []⟩ (by decide)).2.1 (by decide)).1⟩

/-!
Small accessor lemmas for the mutation operations.
-/

theorem set_position_block_id (b : FilterBlock) (i : Int) :
    (b.set_position i).block_id = b.block_id := by
  cases b
  rfl

theorem set_position_sub_blocks (b : FilterBlock) (i : Int) :
    (b.set_position i).sub_blocks = b.sub_blocks := by
  cases b
  rfl

theorem set_position_set_position (b : FilterBlock) (i j : Int) :
    (b.set_position i).set_position j = b.set_position j := by
  cases b
  rfl

theorem set_components_sub_blocks (b : FilterBlock) (m : List (String × List Component)) :
    (b.set_components m).sub_blocks = b.sub_blocks := by
  cases b
  rfl

theorem set_components_components (b : FilterBlock) (m : List (String × List Component)) :
    (b.set_components m).components = m := by
  cases b
  rfl

theorem remove_sub_block_block_id (b : FilterBlock) (bid : String) :
    (b.remove_sub_block bid).block_id = b.block_id := by
  cases b
  rfl

theorem remove_sub_block_sub_blocks (b : FilterBlock) (bid : String) :
    (b.remove_sub_block bid).sub_blocks =
      renumberFrom (b.sub_blocks.filter (fun c => c.block_id != bid)) 0 := by
  cases b
  rfl

theorem renumberFrom_mem (l : List FilterBlock) :
    ∀ (i : Int) (x : FilterBlock), x ∈ renumberFrom l i →
      ∃ y ∈ l, ∃ j : Int, x = y.set_position j := by
  induction l with
  | nil =>
    intro i x hx
    simp [renumberFrom] at hx
  | cons b bs ih =>
    intro i x hx
    simp only [renumberFrom, List.mem_cons] at hx
    rcases hx with rfl | hx
    · exact ⟨b, List.mem_cons_self b bs, i, rfl⟩
    · obtain ⟨y, hy, j, hj⟩ := ih (i + 1) x hx
      exact ⟨y, List.mem_cons_of_mem b hy, j, hj⟩

theorem renumberFrom_length (l : List FilterBlock) :
    ∀ (i : Int), (renumberFrom l i).length = l.length := by
  induction l with
  | nil => intro i; rfl
  | cons b bs ih =>
    intro i
    simp [renumberFrom, ih (i + 1)]

theorem renumberFrom_positions (l : List FilterBlock) :
    ∀ (i : Int), (renumberFrom l i).map FilterBlock.position = posIdxList l.length i := by
  induction l with
  | nil => intro i; rfl
  | cons b bs ih =>
    intro i
    have hpos : (b.set_position i).position = i := by
      cases b
      rfl
    simp [renumberFrom, posIdxList, hpos, ih (i + 1)]

theorem renumberFrom_erase (l : List FilterBlock) :
    ∀ (i : Int), (renumberFrom l i).map erasePosition = l.map erasePosition := by
  induction l with
  | nil => intro i; rfl
  | cons b bs ih =>
    intro i
    simp [renumberFrom, erasePosition, set_position_set_position, ih (i + 1)]

/-!
C4: removing a block through the flow of `main`.
-/

/-- A grand-child block (nested two levels deep). -/
def blockX4 : FilterBlock := .mk "X" 0 (some "b") "x" emptyComponents [] 0 0

/-- A child block holding `blockX4`. -/
def blockB4 : FilterBlock := .mk "B" 0 (some "a") "b" emptyComponents [blockX4] 0 0

/-- A top-level block holding `blockB4`. -/
def blockA4 : FilterBlock := .mk "A" 0 none "a" emptyComponents [blockB4] 0 0

/-- Topology with one top-level block, a child and a grand-child. -/
def topo4 : FilterTopology := ⟨"T", [blockA4], 1⟩

/-- C4 counterexample: removing id `"x"` (held as a sub-block of the nested
block `"b"`) via the complete removal flow of `main` — `remove_block` on the
topology followed by `remove_sub_block` on every top-level block — leaves the
dangling reference in place: block `"b"` still holds a sub-block with the
removed id, because the flow only cleans the top-level blocks' direct child
lists. -/
theorem remove_block_dangling_counterexample :
    anyBlockHoldsRef (removeBlockFlow topo4 "x") "x" = true := by
  decide

/-- C4 (amended): the removal flow does remove every reference at the depths
it visits: afterwards no top-level block has the removed id and no top-level
block directly holds a sub-block with the removed id; references held by
blocks nested deeper survive (see the counterexample). -/
theorem remove_block_flow_top_level_clean (t : FilterTopology) (bid : String) :
    topLevelClean (removeBlockFlow t bid) bid = true := by
  simp only [topLevelClean, removeBlockFlow, FilterTopology.remove_block, List.all_eq_true]
  intro b hb
  simp only [List.mem_map] at hb
  obtain ⟨b0, hb0, rfl⟩ := hb
  obtain ⟨y, hy, j, rfl⟩ := renumberFrom_mem _ _ _ hb0
  have hyid : (y.block_id != bid) = true := (List.mem_filter.mp hy).2
  rw [Bool.and_eq_true]
  constructor
  · rw [remove_sub_block_block_id, set_position_block_id]
    exact hyid
  · rw [List.all_eq_true]
    intro c hc
    rw [remove_sub_block_sub_blocks, set_position_sub_blocks] at hc
    obtain ⟨z, hz, k, rfl⟩ := renumberFrom_mem _ _ _ hc
    rw [set_position_block_id]
    exact (List.mem_filter.mp hz).2

/-- C6: `remove_sub_block` keeps exactly the children whose `block_id` does
not match (in their relative order, all fields but `position` untouched)
and renumbers the survivors' positions to the dense sequence `0..m-1`. -/
theorem remove_sub_block_spec (b : FilterBlock) (bid : String) :
    (b.remove_sub_block bid).sub_blocks.length =
      (b.sub_blocks.filter (fun c => c.block_id != bid)).length ∧
    (b.remove_sub_block bid).sub_blocks.map FilterBlock.position =
      posIdxList (b.sub_blocks.filter (fun c => c.block_id != bid)).length 0 ∧
    (b.remove_sub_block bid).sub_blocks.map erasePosition =
      (b.sub_blocks.filter (fun c => c.block_id != bid)).map erasePosition ∧
    (b.remove_sub_block bid).sub_blocks.all (fun c => c.block_id != bid) = true := by
  rw [remove_sub_block_sub_blocks]
  refine ⟨renumberFrom_length _ _, renumberFrom_positions _ _, renumberFrom_erase _ _, ?_⟩
  rw [List.all_eq_true]
  intro c hc
  obtain ⟨z, hz, k, rfl⟩ := renumberFrom_mem _ _ _ hc
  rw [set_position_block_id]
  exact (List.mem_filter.mp hz).2

/-!
C7 and C8: rejected mutations are exact no-ops.
-/

theorem lookupEntry_eq_none (m : List (String × List Component)) (key : String)
    (h : key ∉ m.map Prod.fst) : lookupEntry m key = none := by
  induction m with
  | nil => rfl
  | cons p rest ih =>
    obtain ⟨k, v⟩ := p
    simp only [List.map_cons, List.mem_cons, not_or] at h
    simp only [lookupEntry]
    rw [if_neg (fun heq => h.1 heq.symm)]
    exact ih h.2

/-- C7: `add_component` with a kind that is not one of the four recognized
kinds (the keys `C, L, R, G` installed by `__post_init__`) leaves the block
completely unchanged. -/
theorem add_component_invalid_kind (b : FilterBlock) (ct : String) (v : ℚ) (u : String)
    (hwf : b.components.map Prod.fst = componentKinds)
    (h : ct ∉ (["R", "L", "C", "G"] : List String)) :
    b.add_component ct v u = b := by
  have hnone : lookupEntry b.components ct = none := by
    apply lookupEntry_eq_none
    rw [hwf]
    simp only [componentKinds, List.mem_cons, List.not_mem_nil, or_false] at h ⊢
    tauto
  simp [FilterBlock.add_component, hnone]

/-- Witness for C7: adding a component of unknown kind `"X"` to a freshly
created block changes nothing. -/
theorem add_component_invalid_kind_witness :
    blockDefault.components.map Prod.fst = componentKinds ∧
    blockDefault.add_component "X" 5 "Ω" = blockDefault :=
  ⟨by decide, add_component_invalid_kind blockDefault "X" 5 "Ω" (by decide) (by decide)⟩

/-- The component list the block's dict holds for `ct` (empty when `ct` is not
a key), the list whose length bounds valid removal indices. -/
def kindList (b : FilterBlock) (ct : String) : List Component :=
  (lookupEntry b.components ct).getD []

/-- C8: `remove_component` with an out-of-range index — negative, or at least
the length of that kind's list — is a silent no-op: the block is returned
exactly unchanged. -/
theorem remove_component_out_of_range (b : FilterBlock) (ct : String) (index : Int)
    (hct : ct ∈ b.components.map Prod.fst)
    (h : index < 0 ∨ ((kindList b ct).length : Int) ≤ index) :
    b.remove_component ct index = b := by
  rw [kindList] at h
  unfold FilterBlock.remove_component
  cases hl : lookupEntry b.components ct with
  | none => rfl
  | some l =>
    rw [hl] at h
    simp only [Option.getD_some] at h
    have hno : ¬(0 ≤ index ∧ index < (l.length : Int)) := by omega
    show (if 0 ≤ index ∧ index < (l.length : Int) then
        b.set_components (updateEntry b.components ct fun l0 => l0.eraseIdx index.toNat)
      else b) = b
    rw [if_neg hno]

/-- Witness for C8: removing index 5 from the one-element resistor list of a
block is a no-op. -/
theorem remove_component_out_of_range_witness :
    "R" ∈ blockW.components.map Prod.fst ∧
    ((kindList blockW "R").length : Int) ≤ 5 ∧
    blockW.remove_component "R" 5 = blockW :=
  ⟨by decide, by decide,
    remove_component_out_of_range blockW "R" 5 (by decide) (Or.inr (by decide))⟩

/-!
C9: non-negativity of component values under mutation sequences.
-/

theorem updateEntry_mem (m : List (String × List Component)) (key : String)
    (f : List Component → List Component) :
    ∀ p ∈ updateEntry m key f, ∃ q ∈ m, p.2 = q.2 ∨ p.2 = f q.2 := by
  induction m with
  | nil =>
    intro p hp
    simp [updateEntry] at hp
  | cons q0 rest ih =>
    intro p hp
    obtain ⟨k, v⟩ := q0
    simp only [updateEntry] at hp
    by_cases hk : k = key
    · rw [if_pos hk] at hp
      rcases List.mem_cons.mp hp with rfl | hp
      · exact ⟨(k, v), List.mem_cons_self _ _, Or.inr rfl⟩
      · exact ⟨p, List.mem_cons_of_mem _ hp, Or.inl rfl⟩
    · rw [if_neg hk] at hp
      rcases List.mem_cons.mp hp with rfl | hp
      · exact ⟨(k, v), List.mem_cons_self _ _, Or.inl rfl⟩
      · obtain ⟨q, hq, hor⟩ := ih p hp
        exact ⟨q, List.mem_cons_of_mem _ hq, hor⟩

theorem compsNonneg_add_component (b : FilterBlock) (ct : String) (v : ℚ) (u : String)
    (h0 : compsNonneg b) (hv : 0 ≤ v) : compsNonneg (b.add_component ct v u) := by
  unfold FilterBlock.add_component
  cases hl : lookupEntry b.components ct with
  | none => exact h0
  | some l =>
    intro p hp c hc
    rw [set_components_components] at hp
    obtain ⟨q, hq, hor⟩ := updateEntry_mem _ _ _ p hp
    rcases hor with he | he
    · exact h0 q hq c (he ▸ hc)
    · rw [he] at hc
      rcases List.mem_append.mp hc with hc | hc
      · exact h0 q hq c hc
      · rw [List.mem_singleton.mp hc]
        exact hv

theorem compsNonneg_remove_component (b : FilterBlock) (ct : String) (i : Int)
    (h0 : compsNonneg b) : compsNonneg (b.remove_component ct i) := by
  unfold FilterBlock.remove_component
  cases hl : lookupEntry b.components ct with
  | none => exact h0
  | some l =>
    by_cases hi : 0 ≤ i ∧ i < (l.length : Int)
    · show compsNonneg (if 0 ≤ i ∧ i < (l.length : Int) then
          b.set_components (updateEntry b.components ct fun l0 => l0.eraseIdx i.toNat)
        else b)
      rw [if_pos hi]
      intro p hp c hc
      rw [set_components_components] at hp
      obtain ⟨q, hq, hor⟩ := updateEntry_mem _ _ _ p hp
      rcases hor with he | he
      · exact h0 q hq c (he ▸ hc)
      · rw [he] at hc
        exact h0 q hq c (List.eraseIdx_subset _ _ hc)
    · show compsNonneg (if 0 ≤ i ∧ i < (l.length : Int) then
          b.set_components (updateEntry b.components ct fun l0 => l0.eraseIdx i.toNat)
        else b)
      rw [if_neg hi]
      exact h0

theorem applyOp_sub_blocks (b : FilterBlock) (op : BlockOp) :
    (applyOp b op).sub_blocks = b.sub_blocks := by
  cases op with
  | add ct v u =>
    show (b.add_component ct v u).sub_blocks = b.sub_blocks
    unfold FilterBlock.add_component
    cases lookupEntry b.components ct with
    | none => rfl
    | some l => exact set_components_sub_blocks _ _
  | remove ct i =>
    show (b.remove_component ct i).sub_blocks = b.sub_blocks
    unfold FilterBlock.remove_component
    cases lookupEntry b.components ct with
    | none => rfl
    | some l =>
      by_cases hi : 0 ≤ i ∧ i < (l.length : Int)
      · show (if 0 ≤ i ∧ i < (l.length : Int) then
            b.set_components (updateEntry b.components ct fun l0 => l0.eraseIdx i.toNat)
          else b).sub_blocks = b.sub_blocks
        rw [if_pos hi]
        exact set_components_sub_blocks _ _
      · show (if 0 ≤ i ∧ i < (l.length : Int) then
            b.set_components (updateEntry b.components ct fun l0 => l0.eraseIdx i.toNat)
          else b).sub_blocks = b.sub_blocks
        rw [if_neg hi]

/-- C9 counterexample: `add_component` performs no validation of its value, so
a single `add_component("R", -1, "Ω")` request drives a freshly created block
(which satisfies the invariant) into a state holding a component of negative
value, refuting the invariant over arbitrary operation sequences. -/
theorem component_value_invariant_counterexample :
    compsNonnegB blockDefault = true ∧
    compsNonnegB (applyOp blockDefault (.add "R" (-1) "Ω")) = false := by
  decide

/-- C9 (amended): the invariant `value ≥ 0` is preserved by every sequence of
`add_component`/`remove_component` operations whose additions all carry a
non-negative value (the UI guarantees this via `min_value=0.0`; the core does
not check it); such operations also never touch the sub-block list. -/
theorem component_value_invariant_amended (b : FilterBlock) (ops : List BlockOp)
    (h0 : compsNonneg b) (hops : ∀ op ∈ ops, opNonneg op) :
    compsNonneg (ops.foldl applyOp b) ∧ (ops.foldl applyOp b).sub_blocks = b.sub_blocks := by
  induction ops generalizing b with
  | nil => exact ⟨h0, rfl⟩
  | cons op ops ih =>
    have h1 : compsNonneg (applyOp b op) := by
      cases op with
      | add ct v u =>
        exact compsNonneg_add_component b ct v u h0 (hops _ (List.mem_cons_self _ _))
      | remove ct i => exact compsNonneg_remove_component b ct i h0
    have h2 := ih (applyOp b op) h1 (fun o ho => hops o (List.mem_cons_of_mem _ ho))
    exact ⟨h2.1, h2.2.trans (applyOp_sub_blocks b op)⟩

/-- Witness for C9 (amended): a block built by one valid addition and one
removal still satisfies the invariant. -/
theorem component_value_invariant_amended_witness :
    compsNonneg (([BlockOp.add "R" 5 "Ω", BlockOp.remove "R" 0]).foldl applyOp blockDefault) :=
  (component_value_invariant_amended blockDefault [BlockOp.add "R" 5 "Ω", BlockOp.remove "R" 0]
    (by unfold compsNonneg; decide)
    (by
      intro op hop
      rcases List.mem_cons.mp hop with rfl | hop
      · show (0 : ℚ) ≤ 5
        norm_num
      · rcases List.mem_singleton.mp hop with rfl
        trivial)).1

/-!
C5: the parallel-impedance evaluator (spec-modelled, see section above).
-/

/-- Network with no resistor, a 1000 mH (1 H) inductor and a 1000000 µF (1 F)
capacitor, both enabled: an L‖C pair resonant at ω = 1. -/
def resonantNet : RLCNetwork := ⟨false, 0, true, 1000, true, 1000000⟩

/-- C5 counterexample: `resonantNet` has an enabled positive-valued component
and ω = 1 > 0, yet the evaluator returns infinite impedance (`none`): at
resonance the inductive conductance `1/(jωL) = -j` and capacitive conductance
`jωC = j` cancel exactly, so the accumulated total is zero and the
"at least one enabled component ⇒ finite" claim fails. -/
theorem parallel_impedance_counterexample :
    (resonantNet.l_enabled ∧ 0 < resonantNet.l_value) ∧ (0:ℚ) < 1 ∧
    calculate_parallel_impedance resonantNet 1 = none := by
  refine ⟨⟨rfl, by norm_num [resonantNet]⟩, by norm_num, ?_⟩
  norm_num [calculate_parallel_impedance, resonantNet, Cx.inv, Cx.add, Cx.zero]

theorem gRe_L (c : Prop) [Decidable c] (z : ℚ) :
    (if c then Cx.inv ⟨0, z⟩ else Cx.zero).re = 0 := by
  split
  · simp [Cx.inv]
  · rfl

theorem gRe_C (c : Prop) [Decidable c] (y : ℚ) :
    (if c then Cx.mk 0 y else Cx.zero).re = 0 := by
  split
  · rfl
  · rfl

theorem neg_div_sq (z : ℚ) (hz : z ≠ 0) : -z / (0 ^ 2 + z ^ 2) = -(1 / z) := by
  have hzz : z * z ≠ 0 := mul_ne_zero hz hz
  rw [show (0:ℚ) ^ 2 + z ^ 2 = z * z by ring, neg_div]
  congr 1
  rw [div_eq_div_iff hzz hz]
  ring

/-- C5 (amended): for ω > 0 the evaluator returns a finite (`some`) impedance
whenever some component is enabled with positive value, except in the one
degenerate family the conductance model admits — a pure L‖C pair (no enabled
positive resistor) at exact resonance `ωC_F · ωL_H = 1`, where the total
conductance is zero and the result is infinite; and with no enabled
positive-valued component the result is always infinite (`none`). -/
theorem parallel_impedance_amended (net : RLCNetwork) (omega : ℚ) (hω : 0 < omega) :
    (enabledPositive net → ¬ lcResonance net omega →
      (calculate_parallel_impedance net omega).isSome = true) ∧
    (¬ enabledPositive net → calculate_parallel_impedance net omega = none) := by
  constructor
  · intro hEP hRes
    by_cases hR : net.r_enabled ∧ 0 < net.r_value
    · have h1 : (0:ℚ) < 1 / net.r_value := div_pos one_pos hR.2
      simp only [calculate_parallel_impedance, if_pos hR]
      rw [if_neg]
      · rfl
      · intro hz
        have hre := congrArg Cx.re hz
        simp only [Cx.add, gRe_L, gRe_C] at hre
        simp only [Cx.zero, add_zero] at hre
        exact absurd hre (ne_of_gt h1)
    · by_cases hL : net.l_enabled ∧ 0 < net.l_value
      · have hlv := hL.2
        have hz : (0:ℚ) < omega * (net.l_value / 1000) := by positivity
        have hzne : omega * (net.l_value / 1000) ≠ 0 := ne_of_gt hz
        by_cases hC : net.c_enabled ∧ 0 < net.c_value
        · simp only [calculate_parallel_impedance, if_neg hR, if_pos hL, if_pos hC]
          rw [if_neg]
          · rfl
          · intro heq
            have him := congrArg Cx.im heq
            simp only [Cx.add, Cx.zero, Cx.inv, zero_add] at him
            rw [neg_div_sq _ hzne] at him
            apply hRes
            refine ⟨hR, hL, hC, ?_⟩
            have hy : omega * (net.c_value / 1000000) = 1 / (omega * (net.l_value / 1000)) := by
              linarith
            rw [hy, one_div_mul_cancel hzne]
        · simp only [calculate_parallel_impedance, if_neg hR, if_pos hL, if_neg hC]
          rw [if_neg]
          · rfl
          · intro heq
            have him := congrArg Cx.im heq
            simp only [Cx.add, Cx.zero, Cx.inv, zero_add, add_zero] at him
            rw [neg_div_sq _ hzne] at him
            have h0 : 1 / (omega * (net.l_value / 1000)) = 0 := by linarith
            exact one_div_ne_zero hzne h0
      · by_cases hC : net.c_enabled ∧ 0 < net.c_value
        · have hcv := hC.2
          have hy : (0:ℚ) < omega * (net.c_value / 1000000) := by positivity
          simp only [calculate_parallel_impedance, if_neg hR, if_neg hL, if_pos hC]
          rw [if_neg]
          · rfl
          · intro heq
            have him := congrArg Cx.im heq
            simp only [Cx.add, Cx.zero, zero_add] at him
            exact absurd him (ne_of_gt hy)
        · rcases hEP with h | h | h
          · exact absurd h hR
          · exact absurd h hL
          · exact absurd h hC
  · intro hnEP
    have hR : ¬(net.r_enabled ∧ 0 < net.r_value) := fun h => hnEP (Or.inl h)
    have hL : ¬(net.l_enabled ∧ 0 < net.l_value) := fun h => hnEP (Or.inr (Or.inl h))
    have hC : ¬(net.c_enabled ∧ 0 < net.c_value) := fun h => hnEP (Or.inr (Or.inr h))
    simp only [calculate_parallel_impedance, if_neg hR, if_neg hL, if_neg hC]
    simp [Cx.add, Cx.zero]

/-- Network with only a 100Ω resistor enabled. -/
def rOnlyNet : RLCNetwork := ⟨true, 100, false, 0, false, 0⟩

/-- Witness for C5 (amended): a single enabled 100Ω resistor at ω = 1 yields a
finite impedance. -/
theorem parallel_impedance_amended_witness :
    (0:ℚ) < 1 ∧ (calculate_parallel_impedance rOnlyNet 1).isSome = true :=
  ⟨by norm_num,
    (parallel_impedance_amended rOnlyNet 1 (by norm_num)).1
      (Or.inl ⟨rfl, by norm_num [rOnlyNet]⟩)
      (fun hres => hres.1 ⟨rfl, by norm_num [rOnlyNet]⟩)⟩
